import Mathlib

/-!
Verification of the mindmap graph-visibility resolver and canvas
reconciliation logic (frontend/app/mindmap/projects/[id]/page.tsx,
frontend/app/components/mindmap/MindmapCanvas.tsx,
frontend/app/hooks/useAutoRag.ts), shallowly embedded in Lean.
-/

/-- Domain node (`ProcessNode` in the TypeScript source).  Positions are kept
as integers: the resolver and reconciler only copy and compare them, never
compute with them. -/
structure GNode where
  id : String
  label : String
  description : String
  phase : String
  category : String
  checklist : List String
  deliverables : List String
  key_stakeholders : List String
  posX : Int
  posY : Int
  status : String
deriving Repr, DecidableEq

/-- Domain edge (`EdgeData` in the TypeScript source). -/
structure GEdge where
  id : String
  source : String
  target : String
  kind : String
  reason : String
deriving Repr, DecidableEq

/-- Forward adjacency lookup.  The source builds a
`Map<string, string[]>` by pushing `e.target` onto the list at key
`e.source` for every edge in order; looking up key `s` (with `|| []` for a
missing key) therefore returns the targets of the edges whose source is
`s`, in edge order, which is what this function computes directly. -/
def adjacency (edges : List GEdge) (s : String) : List String :=
  (edges.filter (fun e => e.source == s)).map (fun e => e.target)

/-- All edge targets; the ids the BFS can ever add to its descendant set. -/
def allTargets (edges : List GEdge) : List String :=
  edges.map (fun e => e.target)

/-- State of the `getDescendants` while-loop: the `descendants` set (kept as
an insertion-ordered duplicate-free list) and the work `queue`. -/
structure BfsState where
  descendants : List String
  queue : List String
deriving Repr, DecidableEq

/-- The inner `for (const child of children)` loop of `getDescendants`:
a child not yet in `descendants` is added there and pushed on the queue. -/
def bfsVisitChildren : List String → BfsState → BfsState
  | [], s => s
  | c :: cs, s =>
      if c ∈ s.descendants then bfsVisitChildren cs s
      else bfsVisitChildren cs ⟨s.descendants ++ [c], s.queue ++ [c]⟩

/-- One iteration of the while-loop: `queue.shift()` the current id, look up
its children (`adjacency.get(current) || []`) and visit them. -/
def bfsStep (edges : List GEdge) (s : BfsState) : BfsState :=
  match s.queue with
  | [] => s
  | current :: rest => bfsVisitChildren (adjacency edges current) ⟨s.descendants, rest⟩

/-- Run the while-loop for at most `fuel` iterations (it stops as soon as
the queue is empty; `bfsFuel` iterations are proved sufficient below). -/
def bfsIter (edges : List GEdge) : Nat → BfsState → BfsState
  | 0, s => s
  | fuel + 1, s =>
      match s.queue with
      | [] => s
      | _ :: _ => bfsIter edges fuel (bfsStep edges s)

/-- An iteration budget sufficient for the loop to drain its queue: one
dequeue for the root plus at most one per distinct edge target. -/
def bfsFuel (edges : List GEdge) : Nat :=
  (allTargets edges).dedup.length + 1

/-- `getDescendants(rootId)`: BFS from `rootId` over the forward adjacency,
starting with an empty descendant set and `queue = [rootId]`.  Note the
root itself is not pre-seeded into `descendants`, so a cycle returning to
the root adds the root to its own descendant set. -/
def getDescendants (edges : List GEdge) (rootId : String) : List String :=
  (bfsIter edges (bfsFuel edges) ⟨[], [rootId]⟩).descendants

/-- Membership in `hiddenNodeIds`: the source accumulates every collapsed
id's descendant set into one JS `Set`, which is observed only through
`has`; an id is hidden iff some collapsed id reaches it. -/
def isHidden (edges : List GEdge) (collapsedIds : List String) (x : String) : Bool :=
  collapsedIds.any (fun cid => decide (x ∈ getDescendants edges cid))

/-- Result of the `visibleNodes/visibleEdges/descendantCounts` `useMemo`.
`descendantCounts` is the `Map` observed as an association list keyed by
collapsed id. -/
structure ResolveResult where
  visibleNodes : List GNode
  visibleEdges : List GEdge
  descendantCounts : List (String × Nat)
deriving Repr, DecidableEq

/-- The resolver `useMemo` body: per-collapsed-id descendant counts, then
the node filter (phase/category filters and the collapse-hidden set), then
the edge filter (both endpoints visible). -/
def resolve (nodes : List GNode) (edges : List GEdge) (collapsedIds : List String)
    (filterPhases filterCategories : List String) : ResolveResult :=
  let counts := collapsedIds.map (fun cid => (cid, (getDescendants edges cid).length))
  let vnodes := nodes.filter (fun n =>
    filterPhases.contains n.phase && filterCategories.contains n.category
      && !(isHidden edges collapsedIds n.id))
  let visibleNodeIds := vnodes.map (fun n => n.id)
  let vedges := edges.filter (fun e =>
    visibleNodeIds.contains e.source && visibleNodeIds.contains e.target)
  ⟨vnodes, vedges, counts⟩

/-- `descendantCounts.get(id)` on the association-list view of the `Map`. -/
def countsLookup (counts : List (String × Nat)) (n : String) : Option Nat :=
  (counts.find? (fun p => p.1 == n)).map (fun p => p.2)

/-! Canvas state reconciler (MindmapCanvas.tsx) -/

/-- A rendered scene node as React Flow sees it: id plus current position. -/
structure RFNode where
  id : String
  x : Int
  y : Int
deriving Repr, DecidableEq

/-- `nds.find(n => n.id === newN.id)`: locate a scene node by id. -/
def findNode (nds : List RFNode) (i : String) : Option RFNode :=
  nds.find? (fun n => n.id == i)

/-- The `setNodes` sync effect: map over the freshly derived `rfNodes`
(`incoming`); while the drag flag is set, a node already present in the
scene keeps its current position instead of taking the incoming one. -/
def syncNodes (isDragging : Bool) (current incoming : List RFNode) : List RFNode :=
  incoming.map (fun newN =>
    if isDragging then
      match findNode current newN.id with
      | some currentN => { newN with x := currentN.x, y := currentN.y }
      | none => newN
    else newN)

/-- `onDragStop`: clear the drag flag and emit
`onNodeDragStop(node.id, node.position.x, node.position.y)` — the first
component is the new drag-flag value, the second the emitted intent. -/
def onDragStop (node : RFNode) : Bool × (String × Int × Int) :=
  (false, (node.id, node.x, node.y))

/-- `nodeIdsWithChildren`: source ids of `allEdges` when that prop is
passed, else of `processEdges` (the currently visible edges); the JS `Set`
is observed as list membership. -/
def nodeIdsWithChildren (allEdges : Option (List GEdge)) (processEdges : List GEdge) :
    List String :=
  match allEdges with
  | some es => es.map (fun e => e.source)
  | none => processEdges.map (fun e => e.source)

/-- The per-node `data` payload built inside the `rfNodes` `useMemo`
(fields the claims are about; `hasCollapseToggle` records whether the
`onCollapseToggle` callback is wired, i.e. not `undefined`). -/
structure RFNodeData where
  label : String
  isSelected : Bool
  isHighlighted : Bool
  isDimmed : Bool
  collapsed : Bool
  hiddenDescendantCount : Option Nat
  hasChildren : Bool
  hasCollapseToggle : Bool
deriving Repr, DecidableEq

/-- One element of the `rfNodes` mapping. `hasOnNodeCollapse` is whether
the `onNodeCollapse` prop was supplied. -/
def mkRFNodeData (pn : GNode) (selectedNodeId : Option String)
    (highlightedNodes : List String) (collapsedNodeIds : List String)
    (descendantCounts : List (String × Nat)) (idsWithChildren : List String)
    (hasOnNodeCollapse : Bool) : RFNodeData :=
  let hasHighlight := highlightedNodes.length > 0
  { label := pn.label
    isSelected := selectedNodeId == some pn.id
    isHighlighted := if hasHighlight then highlightedNodes.contains pn.id else true
    isDimmed := hasHighlight && !(highlightedNodes.contains pn.id)
    collapsed := collapsedNodeIds.contains pn.id
    hiddenDescendantCount := countsLookup descendantCounts pn.id
    hasChildren := idsWithChildren.contains pn.id || collapsedNodeIds.contains pn.id
    hasCollapseToggle := hasOnNodeCollapse
      && (idsWithChildren.contains pn.id || collapsedNodeIds.contains pn.id) }

/-- `handleNodeCollapse` in the project page: unconditionally toggle the
node's membership in `collapsedNodeIds` (delete if present, add if not). -/
def handleNodeCollapse (collapsedIds : List String) (nodeId : String) : List String :=
  if collapsedIds.contains nodeId then collapsedIds.filter (fun x => !(x == nodeId))
  else collapsedIds ++ [nodeId]

/-! Debounced related-knowledge auto-search (useAutoRag.ts) -/

/-- The slice of the selected node the hook closes over and compares
(`id`, `label`, `description`). -/
structure SelNode where
  id : String
  label : String
  description : String
deriving Repr, DecidableEq

/-- Event-loop-level state of the hook: current selection, the
`lastProcessedNode` ref, the pending debounce timer (with its captured
closure), in-flight auto-link requests (with their captured closures), and
the node ids delivered so far through `onResultsFound`. -/
structure AutoRagState where
  selected : Option SelNode
  lastProcessed : Option SelNode
  timer : Option SelNode
  inflight : List SelNode
  delivered : List String
deriving Repr, DecidableEq

def autoRagInit : AutoRagState := ⟨none, none, none, [], []⟩

/-- Selection change: the previous effect's cleanup clears the pending
timer; the new effect body returns early on a `null` selection or an
unchanged `(id, label, description)` triple, otherwise starts a fresh
debounce timer capturing the current selection. -/
def autoRagSelect (st : AutoRagState) (sel : Option SelNode) : AutoRagState :=
  let st' : AutoRagState := { st with selected := sel, timer := none }
  match sel with
  | none => st'
  | some sn =>
      if st'.lastProcessed == some sn then st'
      else { st' with timer := some sn }

/-- The debounce timer fires: the guard `selectedNode.id !== current.id`
compares two fields captured from the same closure (`current` is built
from `selectedNode` inside the very effect that armed this timer), so it
compares `c.id` with itself; the fetch then starts with the captured
closure. -/
def autoRagTimerFire (st : AutoRagState) : AutoRagState :=
  match st.timer with
  | none => st
  | some c =>
      if c.id != c.id then { st with timer := none }
      else { st with timer := none, inflight := st.inflight ++ [c] }

/-- A successful auto-link response for the request captured as `c`
arrives: the hook calls `onResultsFound(selectedNode.id, data)` with the
closure's node id — with no check against the selection current at arrival
time — and records `lastProcessedNode.current = current`. -/
def autoRagResponseOk (st : AutoRagState) (c : SelNode) : AutoRagState :=
  if st.inflight.contains c then
    { st with inflight := st.inflight.erase c
              delivered := st.delivered ++ [c.id]
              lastProcessed := some c }
  else st

/-- Concrete-scenario node builder: id, phase and category matter to the
resolver; the remaining fields take fixed values. -/
def mkNode (i ph ct : String) : GNode :=
  ⟨i, i, "", ph, ct, [], [], [], 0, 0, "not_started"⟩

/-- Concrete-scenario edge builder. -/
def mkEdge (i s t : String) : GEdge := ⟨i, s, t, "hard", ""⟩

/-- `x` is reachable from `a` along at least one forward edge. -/
inductive Reaches (edges : List GEdge) (a : String) : String → Prop where
  | single {b : String} : b ∈ adjacency edges a → Reaches edges a b
  | tail {b c : String} : Reaches edges a b → c ∈ adjacency edges b → Reaches edges a c

/-- Invariant of the BFS loop state, relative to the start node `root`:
the descendant list is duplicate-free, drawn from edge targets, sound for
reachability; queue entries are the root or reachable; and every already
processed id (in the descendant set or the root, and no longer queued) has
all its children recorded. -/
def BfsInv (edges : List GEdge) (root : String) (s : BfsState) : Prop :=
  s.descendants.Nodup
    ∧ (∀ x ∈ s.descendants, x ∈ allTargets edges)
    ∧ (∀ x ∈ s.descendants, Reaches edges root x)
    ∧ (∀ x ∈ s.queue, x = root ∨ Reaches edges root x)
    ∧ (∀ x, (x = root ∨ x ∈ s.descendants) → x ∉ s.queue →
        ∀ c ∈ adjacency edges x, c ∈ s.descendants)

/-- Decreasing measure of the BFS loop: distinct targets not yet collected,
plus the queue length. -/
def bfsMeasure (edges : List GEdge) (s : BfsState) : Nat :=
  ((allTargets edges).dedup.length - s.descendants.length) + s.queue.length

lemma nodup_subset_length_le {l U : List String} (hn : l.Nodup)
    (hsub : ∀ x ∈ l, x ∈ U) : l.length ≤ U.dedup.length := by
  have h1 : List.Subperm l U.dedup :=
    List.subperm_of_subset hn (fun x hx => List.mem_dedup.2 (hsub x hx))
  exact h1.length_le

lemma adjacency_subset_allTargets (edges : List GEdge) (s : String) :
    ∀ x ∈ adjacency edges s, x ∈ allTargets edges := by
  intro x hx
  simp only [adjacency, List.mem_map, List.mem_filter] at hx
  obtain ⟨e, ⟨he, _⟩, rfl⟩ := hx
  exact List.mem_map.2 ⟨e, he, rfl⟩

lemma bfsVisitChildren_spec (children : List String) :
    ∀ d q : List String, d.Nodup →
      ∃ l, bfsVisitChildren children ⟨d, q⟩ = ⟨d ++ l, q ++ l⟩
        ∧ (d ++ l).Nodup
        ∧ (∀ x ∈ l, x ∈ children)
        ∧ (∀ x ∈ children, x ∈ d ++ l) := by
  induction children with
  | nil =>
      intro d q hd
      exact ⟨[], by simp [bfsVisitChildren], by simpa using hd, by simp, by simp⟩
  | cons c cs ih =>
      intro d q hd
      by_cases hc : c ∈ d
      · obtain ⟨l, hrun, hnodup, hsub, hcov⟩ := ih d q hd
        refine ⟨l, ?_, hnodup, ?_, ?_⟩
        · simpa [bfsVisitChildren, hc] using hrun
        · intro x hx; exact List.mem_cons_of_mem _ (hsub x hx)
        · intro x hx
          rcases List.mem_cons.1 hx with rfl | hx
          · exact List.mem_append_left _ hc
          · exact hcov x hx
      · have hd' : (d ++ [c]).Nodup := by
          simp [List.nodup_append, hd, hc]
        obtain ⟨l, hrun, hnodup, hsub, hcov⟩ := ih (d ++ [c]) (q ++ [c]) hd'
        refine ⟨c :: l, ?_, ?_, ?_, ?_⟩
        · have hstep : bfsVisitChildren (c :: cs) ⟨d, q⟩
              = bfsVisitChildren cs ⟨d ++ [c], q ++ [c]⟩ := by
            simp [bfsVisitChildren, hc]
          rw [hstep, hrun]
          simp
        · simpa using hnodup
        · intro x hx
          rcases List.mem_cons.1 hx with rfl | hx
          · exact List.mem_cons_self _ _
          · exact List.mem_cons_of_mem _ (hsub x hx)
        · intro x hx
          rcases List.mem_cons.1 hx with rfl | hx
          · exact List.mem_append_right _ (List.mem_cons_self _ _)
          · simpa using hcov x hx

lemma bfsStep_spec (edges : List GEdge) (root : String) (s : BfsState)
    (hinv : BfsInv edges root s) (hq : s.queue ≠ []) :
    BfsInv edges root (bfsStep edges s)
      ∧ bfsMeasure edges (bfsStep edges s) + 1 = bfsMeasure edges s
      ∧ (∀ x ∈ s.descendants, x ∈ (bfsStep edges s).descendants) := by
  obtain ⟨d, q⟩ := s
  cases q with
  | nil => exact absurd rfl hq
  | cons cur rest =>
      obtain ⟨hnodup, htgt, hsound, hqreach, hclosed⟩ := hinv
      obtain ⟨l, hrun, hnodup', hsub, hcov⟩ :=
        bfsVisitChildren_spec (adjacency edges cur) d rest hnodup
      have hstep : bfsStep edges ⟨d, cur :: rest⟩ = ⟨d ++ l, rest ++ l⟩ := by
        simpa [bfsStep] using hrun
      have hcur : cur = root ∨ Reaches edges root cur :=
        hqreach cur (List.mem_cons_self _ _)
      have hlreach : ∀ x ∈ l, Reaches edges root x := by
        intro x hx
        have hadj : x ∈ adjacency edges cur := hsub x hx
        rcases hcur with rfl | hr
        · exact Reaches.single hadj
        · exact Reaches.tail hr hadj
      have htgt' : ∀ x ∈ d ++ l, x ∈ allTargets edges := by
        intro x hx
        rcases List.mem_append.1 hx with hx | hx
        · exact htgt x hx
        · exact adjacency_subset_allTargets edges cur x (hsub x hx)
      rw [hstep]
      refine ⟨⟨hnodup', htgt', ?_, ?_, ?_⟩, ?_, ?_⟩
      · intro x hx
        rcases List.mem_append.1 hx with hx | hx
        · exact hsound x hx
        · exact hlreach x hx
      · intro x hx
        rcases List.mem_append.1 hx with hx | hx
        · exact hqreach x (List.mem_cons_of_mem _ hx)
        · exact Or.inr (hlreach x hx)
      · intro x hxmem hxq c hc
        by_cases hxcur : x = cur
        · subst hxcur
          exact hcov c hc
        · have hxd : x = root ∨ x ∈ d := by
            rcases hxmem with rfl | hx
            · exact Or.inl rfl
            · rcases List.mem_append.1 hx with hx | hx
              · exact Or.inr hx
              · exact absurd (List.mem_append_right _ hx) hxq
          have hxq' : x ∉ cur :: rest := by
            intro hx
            rcases List.mem_cons.1 hx with rfl | hx
            · exact hxcur rfl
            · exact hxq (List.mem_append_left _ hx)
          exact List.mem_append_left _ (hclosed x hxd hxq' c hc)
      · have hlen : (d ++ l).length ≤ (allTargets edges).dedup.length :=
          nodup_subset_length_le hnodup' htgt'
        simp only [bfsMeasure, List.length_append, List.length_cons] at *
        omega
      · intro x hx
        exact List.mem_append_left _ hx

lemma bfsInv_init (edges : List GEdge) (root : String) :
    BfsInv edges root ⟨[], [root]⟩ := by
  refine ⟨List.nodup_nil, by simp, by simp, ?_, ?_⟩
  · intro x hx
    simp only [List.mem_singleton] at hx
    exact Or.inl hx
  · intro x hxmem hxq c hc
    rcases hxmem with rfl | hx
    · exact absurd (List.mem_singleton.2 rfl) hxq
    · exact absurd hx (List.not_mem_nil x)

lemma bfsIter_spec (edges : List GEdge) (root : String) :
    ∀ fuel s, BfsInv edges root s → bfsMeasure edges s ≤ fuel →
      (bfsIter edges fuel s).queue = []
        ∧ BfsInv edges root (bfsIter edges fuel s)
        ∧ (∀ x ∈ s.descendants, x ∈ (bfsIter edges fuel s).descendants) := by
  intro fuel
  induction fuel with
  | zero =>
      intro s hinv hm
      obtain ⟨d, q⟩ := s
      have hq : q = [] := by
        have hlen : q.length = 0 := by
          simp only [bfsMeasure] at hm
          omega
        exact List.length_eq_zero.1 hlen
      subst hq
      exact ⟨rfl, hinv, fun x hx => hx⟩
  | succ fuel ih =>
      intro s hinv hm
      obtain ⟨d, q⟩ := s
      cases q with
      | nil => exact ⟨rfl, hinv, fun x hx => hx⟩
      | cons cur rest =>
          obtain ⟨hinv', hmeas, hmono⟩ :=
            bfsStep_spec edges root ⟨d, cur :: rest⟩ hinv (by simp)
          have hm' : bfsMeasure edges (bfsStep edges ⟨d, cur :: rest⟩) ≤ fuel := by
            omega
          obtain ⟨h1, h2, h3⟩ := ih (bfsStep edges ⟨d, cur :: rest⟩) hinv' hm'
          refine ⟨h1, h2, ?_⟩
          intro x hx
          exact h3 x (hmono x hx)

/-- Combined facts about `getDescendants`: the loop drains its queue within
the fuel budget, the collected list is duplicate-free, and it contains
exactly the ids reachable from `root` along at least one edge. -/
lemma getDescendants_spec (edges : List GEdge) (root : String) :
    (bfsIter edges (bfsFuel edges) ⟨[], [root]⟩).queue = []
      ∧ (getDescendants edges root).Nodup
      ∧ (∀ x ∈ getDescendants edges root, Reaches edges root x)
      ∧ (∀ x, Reaches edges root x → x ∈ getDescendants edges root) := by
  have hm : bfsMeasure edges ⟨[], [root]⟩ ≤ bfsFuel edges := by
    simp [bfsMeasure, bfsFuel]
  obtain ⟨hq, hinv, _⟩ :=
    bfsIter_spec edges root (bfsFuel edges) ⟨[], [root]⟩ (bfsInv_init edges root) hm
  obtain ⟨hnodup, _, hsound, _, hclosed⟩ := hinv
  refine ⟨hq, hnodup, hsound, ?_⟩
  intro x hx
  induction hx with
  | single hb =>
      exact hclosed root (Or.inl rfl) (by simp [hq]) _ hb
  | tail hab hc ihb =>
      exact hclosed _ (Or.inr ihb) (by simp [hq]) _ hc

/-! Resolver projection lemmas -/

lemma resolve_visibleNodes (nodes : List GNode) (edges : List GEdge)
    (coll ph cat : List String) :
    (resolve nodes edges coll ph cat).visibleNodes
      = nodes.filter (fun n =>
          ph.contains n.phase && cat.contains n.category
            && !(isHidden edges coll n.id)) := rfl

lemma resolve_visibleEdges (nodes : List GNode) (edges : List GEdge)
    (coll ph cat : List String) :
    (resolve nodes edges coll ph cat).visibleEdges
      = edges.filter (fun e =>
          ((resolve nodes edges coll ph cat).visibleNodes.map (fun n => n.id)).contains e.source
            && ((resolve nodes edges coll ph cat).visibleNodes.map (fun n => n.id)).contains e.target) := rfl

lemma resolve_descendantCounts (nodes : List GNode) (edges : List GEdge)
    (coll ph cat : List String) :
    (resolve nodes edges coll ph cat).descendantCounts
      = coll.map (fun cid => (cid, (getDescendants edges cid).length)) := rfl

lemma isHidden_iff (edges : List GEdge) (coll : List String) (x : String) :
    isHidden edges coll x = true ↔ ∃ cid ∈ coll, x ∈ getDescendants edges cid := by
  simp [isHidden, List.any_eq_true]

lemma countsLookup_map (g : String → Nat) :
    ∀ (coll : List String) (n : String), n ∈ coll →
      countsLookup (coll.map (fun c => (c, g c))) n = some (g n) := by
  intro coll
  induction coll with
  | nil => intro n h; cases h
  | cons c cs ih =>
      intro n h
      by_cases hc : c = n
      · subst hc
        simp [countsLookup]
      · have hn : n ∈ cs := by
          rcases List.mem_cons.1 h with rfl | h
          · exact absurd rfl hc
          · exact h
        have hbeq : (c == n) = false := by
          simpa using hc
        have := ih n hn
        simpa [countsLookup, List.find?, hbeq] using this

/-! Shared helper lemmas for the claim theorems -/

lemma hidden_not_visible (nodes : List GNode) (edges : List GEdge)
    (coll ph cat : List String) (n x : String)
    (hn : n ∈ coll) (hr : Reaches edges n x) :
    x ∉ (resolve nodes edges coll ph cat).visibleNodes.map (fun v => v.id) := by
  have hx : x ∈ getDescendants edges n := (getDescendants_spec edges n).2.2.2 x hr
  have hhid : isHidden edges coll x = true := (isHidden_iff edges coll x).2 ⟨n, hn, hx⟩
  intro hmem
  obtain ⟨v, hv, hvx⟩ := List.mem_map.1 hmem
  rw [resolve_visibleNodes] at hv
  obtain ⟨-, hcond⟩ := List.mem_filter.1 hv
  simp only [Bool.and_eq_true, Bool.not_eq_true'] at hcond
  obtain ⟨-, hhid'⟩ := hcond
  rw [hvx, hhid] at hhid'
  cases hhid'

lemma getDescendants_adj_nil (edges : List GEdge) (n : String)
    (ha : adjacency edges n = []) : getDescendants edges n = [] := by
  have h1 : bfsStep edges ⟨[], [n]⟩ = ⟨[], []⟩ := by
    simp [bfsStep, ha, bfsVisitChildren]
  have h2 : ∀ k, bfsIter edges k ⟨[], []⟩ = ⟨[], []⟩ := by
    intro k; cases k <;> rfl
  have h3 : bfsIter edges (bfsFuel edges) ⟨[], [n]⟩ = ⟨[], []⟩ := by
    show bfsIter edges ((allTargets edges).dedup.length + 1) ⟨[], [n]⟩ = ⟨[], []⟩
    rw [show bfsIter edges ((allTargets edges).dedup.length + 1) ⟨[], [n]⟩
        = bfsIter edges (allTargets edges).dedup.length (bfsStep edges ⟨[], [n]⟩) from rfl,
      h1, h2]
  show (bfsIter edges (bfsFuel edges) ⟨[], [n]⟩).descendants = []
  rw [h3]

/-! Claim theorems -/

/-- Claim C1 — while the global drag flag is set, the `setNodes`
reconciliation pass keeps the current on-screen position of every node
already in the scene (found by id) instead of the incoming authoritative
position; and `onDragStop` clears the flag and emits
`onNodeDragStop(id, x, y)` with the final pointer position. -/
theorem c1_drag_preserves_position (current incoming : List RFNode) (m c nd : RFNode)
    (hm : m ∈ syncNodes true current incoming)
    (hc : findNode current m.id = some c) :
    (m.x = c.x ∧ m.y = c.y) ∧ onDragStop nd = (false, (nd.id, nd.x, nd.y)) := by
  refine ⟨?_, rfl⟩
  simp only [syncNodes, List.mem_map, if_true] at hm
  obtain ⟨nn, hnn, hEq⟩ := hm
  cases hfind : findNode current nn.id with
  | some c' =>
      rw [hfind] at hEq
      have hid : m.id = nn.id := by rw [← hEq]
      rw [hid, hfind] at hc
      cases hc
      rw [← hEq]
      exact ⟨rfl, rfl⟩
  | none =>
      rw [hfind] at hEq
      have hid : m.id = nn.id := by rw [← hEq]
      rw [hid, hfind] at hc
      cases hc

/-- Witness for C1 at a concrete scene: node `a` mid-drag at `(5,7)`, an
authoritative refresh carrying `(0,0)`, and a drag-stop at `(42,13)`. -/
theorem c1_drag_preserves_position_witness :
    ((RFNode.mk "a" 5 7) ∈ syncNodes true [RFNode.mk "a" 5 7] [RFNode.mk "a" 0 0])
      ∧ (findNode [RFNode.mk "a" 5 7] (RFNode.mk "a" 5 7).id = some (RFNode.mk "a" 5 7))
      ∧ (((RFNode.mk "a" 5 7).x = (RFNode.mk "a" 5 7).x
            ∧ (RFNode.mk "a" 5 7).y = (RFNode.mk "a" 5 7).y)
          ∧ onDragStop (RFNode.mk "a" 42 13)
              = (false, ((RFNode.mk "a" 42 13).id, (RFNode.mk "a" 42 13).x,
                  (RFNode.mk "a" 42 13).y))) :=
  ⟨by decide, by decide,
    c1_drag_preserves_position [RFNode.mk "a" 5 7] [RFNode.mk "a" 0 0]
      (RFNode.mk "a" 5 7) (RFNode.mk "a" 5 7) (RFNode.mk "a" 42 13)
      (by decide) (by decide)⟩

/-- Claim C2 — for every node `n` in `collapsedIds`, every node reachable
from `n` along the forward adjacency of the full edge set is absent from
`visibleNodes`, regardless of any alternate path from a non-collapsed
node. -/
theorem c2_collapse_hides_reachable (nodes : List GNode) (edges : List GEdge)
    (coll ph cat : List String) (n x : String)
    (hn : n ∈ coll) (hr : Reaches edges n x) :
    x ∉ (resolve nodes edges coll ph cat).visibleNodes.map (fun v => v.id) :=
  hidden_not_visible nodes edges coll ph cat n x hn hr

/-- Witness for C2 on the multi-parent DAG `a→b→c`, `d→c` with only `a`
collapsed: `c` is still hidden although the uncollapsed path `d→c` reaches
it. -/
theorem c2_collapse_hides_reachable_witness :
    ("a" ∈ ["a"])
      ∧ Reaches [mkEdge "e1" "a" "b", mkEdge "e2" "b" "c", mkEdge "e3" "d" "c"] "a" "c"
      ∧ "c" ∉ (resolve
          [mkNode "a" "p" "c1", mkNode "b" "p" "c1", mkNode "c" "p" "c1", mkNode "d" "p" "c1"]
          [mkEdge "e1" "a" "b", mkEdge "e2" "b" "c", mkEdge "e3" "d" "c"]
          ["a"] ["p"] ["c1"]).visibleNodes.map (fun v => v.id) :=
  ⟨by decide,
    @Reaches.tail _ _ "b" "c" (Reaches.single (by decide)) (by decide),
    c2_collapse_hides_reachable
      [mkNode "a" "p" "c1", mkNode "b" "p" "c1", mkNode "c" "p" "c1", mkNode "d" "p" "c1"]
      [mkEdge "e1" "a" "b", mkEdge "e2" "b" "c", mkEdge "e3" "d" "c"]
      ["a"] ["p"] ["c1"] "a" "c" (by decide)
      (@Reaches.tail _ _ "b" "c" (Reaches.single (by decide)) (by decide))⟩

/-- Claim C7 — the descendant BFS terminates on every finite edge set (the
queue is drained within the `bfsFuel` iteration budget), cycles included,
and each node enters the descendant set at most once. -/
theorem c7_traversal_terminates_nodup (edges : List GEdge) (root : String) :
    (bfsIter edges (bfsFuel edges) ⟨[], [root]⟩).queue = []
      ∧ (getDescendants edges root).Nodup :=
  ⟨(getDescendants_spec edges root).1, (getDescendants_spec edges root).2.1⟩

/-- Claim C10 — collapse hiding is computed on the full graph before the
phase/category filters: `descendantCounts` is identical for any two filter
settings, every node reachable from a collapsed `n` is excluded from
`visibleNodes` even when `n` itself fails the current filter, and `n`'s
descendant count is still recorded. -/
theorem c10_collapse_independent_of_filters (nodes : List GNode) (edges : List GEdge)
    (coll ph cat ph' cat' : List String) (n x : String)
    (hn : n ∈ coll) (hr : Reaches edges n x) :
    (resolve nodes edges coll ph cat).descendantCounts
        = (resolve nodes edges coll ph' cat').descendantCounts
      ∧ x ∉ (resolve nodes edges coll ph cat).visibleNodes.map (fun v => v.id)
      ∧ countsLookup (resolve nodes edges coll ph cat).descendantCounts n
          = some (getDescendants edges n).length := by
  refine ⟨rfl, hidden_not_visible nodes edges coll ph cat n x hn hr, ?_⟩
  rw [resolve_descendantCounts]
  exact countsLookup_map (fun c => (getDescendants edges c).length) coll n hn

/-- Witness for C10: node `a` (phase `p1`) is collapsed while the phase
filter only admits `p2`, so `a` itself is not visible; its descendant `b`
is still hidden and `descendantCounts` still carries the entry for `a`. -/
theorem c10_collapse_independent_of_filters_witness :
    ("a" ∈ ["a"])
      ∧ Reaches [mkEdge "e1" "a" "b"] "a" "b"
      ∧ ((resolve [mkNode "a" "p1" "c1", mkNode "b" "p2" "c1"] [mkEdge "e1" "a" "b"]
            ["a"] ["p2"] ["c1"]).descendantCounts
          = (resolve [mkNode "a" "p1" "c1", mkNode "b" "p2" "c1"] [mkEdge "e1" "a" "b"]
              ["a"] ["p1"] ["c1"]).descendantCounts
        ∧ "b" ∉ (resolve [mkNode "a" "p1" "c1", mkNode "b" "p2" "c1"] [mkEdge "e1" "a" "b"]
            ["a"] ["p2"] ["c1"]).visibleNodes.map (fun v => v.id)
        ∧ countsLookup (resolve [mkNode "a" "p1" "c1", mkNode "b" "p2" "c1"]
            [mkEdge "e1" "a" "b"] ["a"] ["p2"] ["c1"]).descendantCounts "a"
            = some (getDescendants [mkEdge "e1" "a" "b"] "a").length) :=
  ⟨by decide, Reaches.single (by decide),
    c10_collapse_independent_of_filters
      [mkNode "a" "p1" "c1", mkNode "b" "p2" "c1"] [mkEdge "e1" "a" "b"]
      ["a"] ["p2"] ["c1"] ["p1"] ["c1"] "a" "b" (by decide)
      (Reaches.single (by decide))⟩

/-- Claim C3 — an input edge is in `visibleEdges` iff both its source and
target are ids of nodes in `visibleNodes`; in particular an edge whose
source references no existing node is excluded rather than failing. -/
theorem c3_edge_visibility (nodes : List GNode) (edges : List GEdge)
    (coll ph cat : List String) (e : GEdge) (he : e ∈ edges) :
    (e ∈ (resolve nodes edges coll ph cat).visibleEdges ↔
      ((∃ v ∈ (resolve nodes edges coll ph cat).visibleNodes, v.id = e.source)
        ∧ (∃ v ∈ (resolve nodes edges coll ph cat).visibleNodes, v.id = e.target)))
      ∧ ((∀ nd ∈ nodes, nd.id ≠ e.source) →
          e ∉ (resolve nodes edges coll ph cat).visibleEdges) := by
  have hiff : e ∈ (resolve nodes edges coll ph cat).visibleEdges ↔
      ((∃ v ∈ (resolve nodes edges coll ph cat).visibleNodes, v.id = e.source)
        ∧ (∃ v ∈ (resolve nodes edges coll ph cat).visibleNodes, v.id = e.target)) := by
    rw [resolve_visibleEdges, List.mem_filter]
    have hcont : ∀ (l : List String) (s : String), l.contains s = true ↔ s ∈ l := by
      intro l s
      simp
    constructor
    · rintro ⟨-, hb⟩
      rw [Bool.and_eq_true] at hb
      obtain ⟨h1, h2⟩ := hb
      rw [hcont] at h1 h2
      obtain ⟨v1, hv1, hid1⟩ := List.mem_map.1 h1
      obtain ⟨v2, hv2, hid2⟩ := List.mem_map.1 h2
      exact ⟨⟨v1, hv1, hid1⟩, ⟨v2, hv2, hid2⟩⟩
    · rintro ⟨⟨v1, hv1, hid1⟩, ⟨v2, hv2, hid2⟩⟩
      refine ⟨he, ?_⟩
      rw [Bool.and_eq_true, hcont, hcont]
      exact ⟨List.mem_map.2 ⟨v1, hv1, hid1⟩, List.mem_map.2 ⟨v2, hv2, hid2⟩⟩
  refine ⟨hiff, ?_⟩
  intro hno hmem
  obtain ⟨⟨v, hv, hvid⟩, -⟩ := hiff.1 hmem
  have hvn : v ∈ nodes := by
    rw [resolve_visibleNodes] at hv
    exact (List.mem_filter.1 hv).1
  exact hno v hvn hvid

/-- Witness for C3: one node `a`, one edge from `a` to the nonexistent id
`zzz`; the edge is excluded from `visibleEdges` without failure. -/
theorem c3_edge_visibility_witness :
    (mkEdge "e1" "a" "zzz" ∈ [mkEdge "e1" "a" "zzz"])
      ∧ ((mkEdge "e1" "a" "zzz"
            ∈ (resolve [mkNode "a" "p" "c1"] [mkEdge "e1" "a" "zzz"] [] ["p"]
                ["c1"]).visibleEdges ↔
          ((∃ v ∈ (resolve [mkNode "a" "p" "c1"] [mkEdge "e1" "a" "zzz"] [] ["p"]
              ["c1"]).visibleNodes, v.id = (mkEdge "e1" "a" "zzz").source)
            ∧ (∃ v ∈ (resolve [mkNode "a" "p" "c1"] [mkEdge "e1" "a" "zzz"] [] ["p"]
                ["c1"]).visibleNodes, v.id = (mkEdge "e1" "a" "zzz").target)))
        ∧ ((∀ nd ∈ [mkNode "a" "p" "c1"], nd.id ≠ (mkEdge "e1" "a" "zzz").source) →
            mkEdge "e1" "a" "zzz"
              ∉ (resolve [mkNode "a" "p" "c1"] [mkEdge "e1" "a" "zzz"] [] ["p"]
                  ["c1"]).visibleEdges)) :=
  ⟨by decide,
    c3_edge_visibility [mkNode "a" "p" "c1"] [mkEdge "e1" "a" "zzz"] [] ["p"] ["c1"]
      (mkEdge "e1" "a" "zzz") (by decide)⟩

/-- Counterexample to claim C4 as stated: on the two-node cycle
`a→b→a` with `a` collapsed, the code records `descendantCounts["a"] = 2`,
counting `a` itself (`a` is in its own BFS descendant set), while the
reachable set excluding `a` has size 1. -/
theorem c4_descendant_count_counterexample :
    countsLookup
        (resolve [mkNode "a" "p" "c1", mkNode "b" "p" "c1"]
          [mkEdge "e1" "a" "b", mkEdge "e2" "b" "a"] ["a"] ["p"] ["c1"]).descendantCounts
        "a" = some 2
      ∧ "a" ∈ getDescendants [mkEdge "e1" "a" "b", mkEdge "e2" "b" "a"] "a"
      ∧ ((getDescendants [mkEdge "e1" "a" "b", mkEdge "e2" "b" "a"] "a").filter
          (fun x => !(x == "a"))).length = 1 := by
  refine ⟨?_, ?_, ?_⟩ <;> decide

/-- Claim C4 as amended — for `n` in `collapsedIds`,
`descendantCounts[n]` is the exact size of the duplicate-free BFS set,
which contains precisely the nodes reachable from `n` via at least one
edge; when a cycle leads back into `n` this set includes `n` itself (so
the count excludes `n` only in the absence of such a cycle). -/
theorem c4_descendant_count_amended (nodes : List GNode) (edges : List GEdge)
    (coll ph cat : List String) (n x : String) (hn : n ∈ coll) :
    countsLookup (resolve nodes edges coll ph cat).descendantCounts n
        = some (getDescendants edges n).length
      ∧ (getDescendants edges n).Nodup
      ∧ (x ∈ getDescendants edges n ↔ Reaches edges n x) := by
  obtain ⟨-, hnd, hsound, hcomp⟩ := getDescendants_spec edges n
  refine ⟨?_, hnd, ⟨hsound x, hcomp x⟩⟩
  rw [resolve_descendantCounts]
  exact countsLookup_map (fun c => (getDescendants edges c).length) coll n hn

/-- Witness for the amended C4 on the cycle `a→b→a` with `a` collapsed,
instantiated at `x = "a"`: the recorded count is the size of the BFS set,
that set is duplicate-free, and membership of `a` coincides with `a`
being reachable from itself. -/
theorem c4_descendant_count_amended_witness :
    ("a" ∈ ["a"])
      ∧ (countsLookup
            (resolve [mkNode "a" "p" "c1", mkNode "b" "p" "c1"]
              [mkEdge "e1" "a" "b", mkEdge "e2" "b" "a"] ["a"] ["p"]
              ["c1"]).descendantCounts "a"
          = some (getDescendants [mkEdge "e1" "a" "b", mkEdge "e2" "b" "a"] "a").length
        ∧ (getDescendants [mkEdge "e1" "a" "b", mkEdge "e2" "b" "a"] "a").Nodup
        ∧ ("a" ∈ getDescendants [mkEdge "e1" "a" "b", mkEdge "e2" "b" "a"] "a"
            ↔ Reaches [mkEdge "e1" "a" "b", mkEdge "e2" "b" "a"] "a" "a")) :=
  ⟨by decide,
    c4_descendant_count_amended [mkNode "a" "p" "c1", mkNode "b" "p" "c1"]
      [mkEdge "e1" "a" "b", mkEdge "e2" "b" "a"] ["a"] ["p"] ["c1"] "a" "a" (by decide)⟩

/-- Counterexample to claim C5 as stated: node `x` has zero outgoing edges
(its adjacency is empty), yet invoking the collapse toggle — as the
context-menu path does for any node — changes `collapsedIds` from `[]` to
`["x"]`. -/
theorem c5_toggle_noop_counterexample :
    adjacency [mkEdge "e1" "a" "b"] "x" = []
      ∧ handleNodeCollapse [] "x" = ["x"]
      ∧ ["x"] ≠ ([] : List String) := by
  refine ⟨?_, ?_, ?_⟩ <;> decide

/-- Claim C5 as amended — `handleNodeCollapse` toggles membership
unconditionally (so the context-menu path does mutate `collapsedIds` even
for a childless node); the no-op protection exists only on the canvas
node-button path, where `onCollapseToggle` is left unwired for a node
that has no children in the supplied edge set and is not collapsed. -/
theorem c5_toggle_noop_amended (ids : List String) (n : String) (pn : GNode)
    (allE : Option (List GEdge)) (procE : List GEdge) (sel : Option String)
    (hl coll : List String) (dc : List (String × Nat))
    (hnochild : (nodeIdsWithChildren allE procE).contains pn.id = false)
    (hnotcoll : coll.contains pn.id = false) :
    (mkRFNodeData pn sel hl coll dc (nodeIdsWithChildren allE procE)
        true).hasCollapseToggle = false
      ∧ (handleNodeCollapse ids n).contains n = !(ids.contains n) := by
  constructor
  · have h1 : pn.id ∉ nodeIdsWithChildren allE procE := by simpa using hnochild
    have h2 : pn.id ∉ coll := by simpa using hnotcoll
    simp [mkRFNodeData, h1, h2]
  · by_cases hmem : n ∈ ids
    · have hfilter : n ∉ ids.filter (fun x => !(x == n)) := by
        intro hmem'
        have := (List.mem_filter.1 hmem').2
        simp at this
      simp [handleNodeCollapse, hmem, hfilter]
    · simp [handleNodeCollapse, hmem]

/-- Witness for the amended C5: childless, uncollapsed node `x` gets no
collapse-toggle callback on the canvas, while `handleNodeCollapse [] "x"`
flips membership. -/
theorem c5_toggle_noop_amended_witness :
    ((nodeIdsWithChildren none [mkEdge "e1" "a" "b"]).contains
        (mkNode "x" "p" "c1").id = false)
      ∧ (([] : List String).contains (mkNode "x" "p" "c1").id = false)
      ∧ ((mkRFNodeData (mkNode "x" "p" "c1") none [] [] []
            (nodeIdsWithChildren none [mkEdge "e1" "a" "b"]) true).hasCollapseToggle = false
        ∧ (handleNodeCollapse [] "x").contains "x" = !(([] : List String).contains "x")) :=
  ⟨by decide, by decide,
    c5_toggle_noop_amended [] "x" (mkNode "x" "p" "c1") none [mkEdge "e1" "a" "b"]
      none [] [] [] (by decide) (by decide)⟩

/-- Claim C6 — a stale collapsed id with no remaining outgoing edges is
harmless: its adjacency lookup is empty, the BFS still drains its queue,
and its `descendantCounts` entry is 0. -/
theorem c6_stale_collapsed_id (nodes : List GNode) (edges : List GEdge)
    (coll ph cat : List String) (n : String)
    (hn : n ∈ coll) (ha : adjacency edges n = []) :
    countsLookup (resolve nodes edges coll ph cat).descendantCounts n = some 0
      ∧ (bfsIter edges (bfsFuel edges) ⟨[], [n]⟩).queue = [] := by
  refine ⟨?_, (getDescendants_spec edges n).1⟩
  rw [resolve_descendantCounts,
    countsLookup_map (fun c => (getDescendants edges c).length) coll n hn,
    getDescendants_adj_nil edges n ha]
  rfl

/-- Witness for C6 on the spec's scenario: node `b` deleted (and its edge
cascaded away) while `a` is still collapsed — resolving with `edges = []`
yields `descendantCounts["a"] = 0`. -/
theorem c6_stale_collapsed_id_witness :
    ("a" ∈ ["a"])
      ∧ adjacency ([] : List GEdge) "a" = []
      ∧ (countsLookup
            (resolve [mkNode "a" "p" "c1"] [] ["a"] ["p"] ["c1"]).descendantCounts "a"
          = some 0
        ∧ (bfsIter ([] : List GEdge) (bfsFuel []) ⟨[], ["a"]⟩).queue = []) :=
  ⟨by decide, by decide,
    c6_stale_collapsed_id [mkNode "a" "p" "c1"] [] ["a"] ["p"] ["c1"] "a"
      (by decide) (by decide)⟩

/-- Counterexample to claim C8 as stated: as invoked by the projects page
(no `allEdges` prop), `nodeIdsWithChildren` is built from the filtered
`visibleEdges`.  Node `a` is the source of the full-set edge `a→b`, but
`b` fails the phase filter, the edge drops out of `visibleEdges`, and the
non-collapsed `a` gets `hasChildren = false`. -/
theorem c8_haschildren_counterexample :
    (mkRFNodeData (mkNode "a" "p1" "c1") none [] []
        (resolve [mkNode "a" "p1" "c1", mkNode "b" "p2" "c1"] [mkEdge "e1" "a" "b"]
          [] ["p1"] ["c1"]).descendantCounts
        (nodeIdsWithChildren none
          (resolve [mkNode "a" "p1" "c1", mkNode "b" "p2" "c1"] [mkEdge "e1" "a" "b"]
            [] ["p1"] ["c1"]).visibleEdges)
        true).hasChildren = false
      ∧ ([mkEdge "e1" "a" "b"].map (fun e => e.source)).contains "a" = true := by
  refine ⟨?_, ?_⟩ <;> decide

/-- Claim C8 as amended — `hasChildren` is true exactly when the node is a
source in the edge set the canvas receives (the full set only when the
`allEdges` prop is passed, which the projects page does not do; otherwise
the filtered `visibleEdges`) or the node is currently collapsed; with
`allEdges` supplied it is independent of the phase/category filters. -/
theorem c8_haschildren_amended (nodes : List GNode) (edges : List GEdge)
    (coll ph cat ph' cat' : List String) (pn : GNode) (sel : Option String)
    (hl : List String) (dc : List (String × Nat)) (hcb : Bool) :
    ((mkRFNodeData pn sel hl coll dc
        (nodeIdsWithChildren (some edges)
          (resolve nodes edges coll ph cat).visibleEdges) hcb).hasChildren = true
      ↔ ((∃ e ∈ edges, e.source = pn.id) ∨ pn.id ∈ coll))
      ∧ (mkRFNodeData pn sel hl coll dc
          (nodeIdsWithChildren (some edges)
            (resolve nodes edges coll ph' cat').visibleEdges) hcb).hasChildren
        = (mkRFNodeData pn sel hl coll dc
            (nodeIdsWithChildren (some edges)
              (resolve nodes edges coll ph cat).visibleEdges) hcb).hasChildren
      ∧ (mkRFNodeData pn sel hl coll dc
          (nodeIdsWithChildren none
            (resolve nodes edges coll ph cat).visibleEdges) hcb).hasChildren
        = (((resolve nodes edges coll ph cat).visibleEdges.map
            (fun e => e.source)).contains pn.id || coll.contains pn.id) := by
  refine ⟨?_, rfl, rfl⟩
  show ((edges.map (fun e => e.source)).contains pn.id || coll.contains pn.id) = true
    ↔ ((∃ e ∈ edges, e.source = pn.id) ∨ pn.id ∈ coll)
  rw [Bool.or_eq_true]
  constructor
  · rintro (h | h)
    · obtain ⟨e, he, hid⟩ := List.mem_map.1 (by simpa using h)
      exact Or.inl ⟨e, he, hid⟩
    · exact Or.inr (by simpa using h)
  · rintro (⟨e, he, hid⟩ | h)
    · exact Or.inl (by simpa using List.mem_map.2 ⟨e, he, hid⟩)
    · exact Or.inr (by simpa using h)

/-- Claim C9 is wrong about the code (code bug): after selecting node `a`,
letting the debounce fire and the auto-link request go in flight, then
selecting node `b`, the arrival of `a`'s response is still delivered
through `onResultsFound` — the in-code guard compares the closure's id
with itself and never discards anything. -/
theorem c9_stale_response_applied :
    (autoRagResponseOk
        (autoRagSelect
          (autoRagTimerFire (autoRagSelect autoRagInit (some ⟨"a", "A", ""⟩)))
          (some ⟨"b", "B", ""⟩))
        ⟨"a", "A", ""⟩).delivered = ["a"]
      ∧ (autoRagResponseOk
          (autoRagSelect
            (autoRagTimerFire (autoRagSelect autoRagInit (some ⟨"a", "A", ""⟩)))
            (some ⟨"b", "B", ""⟩))
          ⟨"a", "A", ""⟩).selected = some ⟨"b", "B", ""⟩
      ∧ ("b" : String) ≠ "a" := by
  refine ⟨?_, ?_, ?_⟩ <;> decide

section Scratch

example :
    getDescendants
      [⟨"e1", "a", "b", "hard", ""⟩, ⟨"e2", "b", "c", "hard", ""⟩,
       ⟨"e3", "d", "c", "hard", ""⟩] "a" = ["b", "c"] := by decide

example :
    getDescendants [⟨"e1", "a", "b", "hard", ""⟩, ⟨"e2", "b", "a", "hard", ""⟩] "a"
      = ["b", "a"] := by decide

example : getDescendants [⟨"e1", "a", "b", "hard", ""⟩] "zzz" = [] := by decide

end Scratch
